import Mathlib

/-!
Shallow embedding of the blockchain voting ledger
(`Blockchain`, `recordVoteOnBlockchain`, `verifyBlockchain` and the
Firebase persistence calls they make).

Modelling conventions:
* The SHA-256 digest `CryptoJS.SHA256(s).toString()` is modelled as an
  explicit function parameter `H : String → String`; claims that need
  collision-freeness take `Function.Injective H` as a hypothesis.
* JavaScript number-to-string coercion (`block.index + block.previousHash`
  concatenates the decimal rendering of the number) is modelled by `natStr`.
* The `while` loop of `mineBlock` may not terminate, so it is embedded with
  an explicit fuel argument; `none` models a non-terminating run.
* The Firestore collection is modelled by `Store`: `docs` is the list of
  persisted blocks in ascending-`index` order (the order `orderBy("index")`
  returns), and the `putFails`/`loadFails` flags schedule store errors,
  which the gateway operations report as `Except.error`.
* The wall clock (`new Date().getTime()`) is modelled by an explicit
  timestamp argument, held constant within one operation.
-/

namespace VotingLedger

/-- Decimal digit list of `n`, most significant first, with explicit fuel
(models the decimal rendering used by JavaScript string coercion). -/
def natDigits : Nat → Nat → List Char
  | 0, _ => []
  | fuel + 1, n =>
    if n < 10 then [Nat.digitChar n]
    else natDigits fuel (n / 10) ++ [Nat.digitChar (n % 10)]

/-- Decimal string of `n`: the JavaScript `String(number)` coercion for
non-negative integers. -/
def natStr (n : Nat) : String := String.mk (natDigits (n + 1) n)

/-- `s.substring(0, n)` in JavaScript: the first `n` characters (the whole
string when it is shorter). -/
def strTake (s : String) (n : Nat) : String := String.mk (s.data.take n)

/-- The payloads the ledger actually stores in `data`: the genesis payload
`{ message: ... }` and the vote payload built by `recordVoteOnBlockchain`. -/
inductive BlockData where
  | genesis (message : String)
  | vote (electionId : String) (candidateId : Nat) (voterIdHash : String)
      (voteHash : String) (timestamp : Nat)
deriving DecidableEq, Repr

/-- `JSON.stringify(block.data)`: insertion-order keys, exact for strings
containing no characters that JSON escapes. -/
def jsonStringify : BlockData → String
  | .genesis m => "\x7b\"message\":\"" ++ m ++ "\"\x7d"
  | .vote e c vih vh t =>
      "\x7b\"type\":\"VOTE\",\"electionId\":\"" ++ e ++
      "\",\"candidateId\":" ++ natStr c ++
      ",\"voterIdHash\":\"" ++ vih ++
      "\",\"voteHash\":\"" ++ vh ++
      "\",\"timestamp\":" ++ natStr t ++ "\x7d"

/-- The `Block` interface of the source. -/
structure Block where
  index : Nat
  timestamp : Nat
  data : BlockData
  previousHash : String
  hash : String
  nonce : Nat
deriving DecidableEq, Repr

/-- Default genesis message (`ENV.blockchain.genesisMessage`). -/
def genesisMessage : String := "Blockchain Voting System Genesis Block"

/-- The string hashed by `calculateHash`:
`block.index + block.previousHash + block.timestamp +
JSON.stringify(block.data) + block.nonce` (number operands coerced to
their decimal string form). -/
def hashInput (b : Block) : String :=
  natStr b.index ++ b.previousHash ++ natStr b.timestamp ++
    jsonStringify b.data ++ natStr b.nonce

/-- `calculateHash(block)`, with the digest function `H` as parameter. -/
def calculateHash (H : String → String) (b : Block) : String := H (hashInput b)

/-- `Array(difficulty + 1).join("0")`: a string of `difficulty` zeros. -/
def target (difficulty : Nat) : String := String.mk (List.replicate difficulty '0')

/-- The body of the `mineBlock` loop:
`block.nonce++; block.hash = this.calculateHash(block)`. -/
def stepBlock (H : String → String) (b : Block) : Block :=
  { b with
    nonce := b.nonce + 1
    hash := calculateHash H { b with nonce := b.nonce + 1 } }

/-- The `while` loop of `mineBlock`: while the current hash does not start
with `difficulty` zeros, increment the nonce and recompute the hash.
`none` models a run that does not terminate within `fuel` iterations. -/
def mineLoop (H : String → String) (difficulty : Nat) (b : Block) :
    Nat → Option Block
  | 0 => none
  | fuel + 1 =>
    if strTake b.hash difficulty = target difficulty then some b
    else mineLoop H difficulty (stepBlock H b) fuel

/-- `createGenesisBlock`: build the index-0 block with `previousHash = "0"`,
empty hash and nonce 0, then mine it. -/
def createGenesisBlock (H : String → String) (difficulty : Nat) (ts : Nat)
    (fuel : Nat) : Option Block :=
  mineLoop H difficulty
    { index := 0, timestamp := ts, data := .genesis genesisMessage,
      previousHash := "0", hash := "", nonce := 0 } fuel

/-- The in-memory effect of `addBlock`: read the latest block, build the
candidate with `index = prev.index + 1`, `previousHash = prev.hash`, empty
hash and nonce 0, mine it and push it.  (The Firebase write that `addBlock`
also performs is added by `addBlockStore` below; it cannot influence the
chain because its errors are swallowed.) -/
def addBlockChain (H : String → String) (difficulty fuel : Nat)
    (chain : List Block) (data : BlockData) (ts : Nat) :
    Option (List Block × Block) :=
  match chain.getLast? with
  | none => none
  | some prev =>
    match mineLoop H difficulty
        { index := prev.index + 1, timestamp := ts, data := data,
          previousHash := prev.hash, hash := "", nonce := 0 } fuel with
    | none => none
    | some nb => some (chain ++ [nb], nb)

/-- A chain as built in memory by the ledger operations: a mined genesis
block followed by `addBlock` for each payload (each with its timestamp). -/
def buildChain (H : String → String) (difficulty fuel : Nat)
    (payloads : List (BlockData × Nat)) (ts0 : Nat) : Option (List Block) :=
  match createGenesisBlock H difficulty ts0 fuel with
  | none => none
  | some g =>
    payloads.foldlM
      (fun ch p => (addBlockChain H difficulty fuel ch p.1 p.2).map Prod.fst)
      [g]

/-- The loop body of `isChainValid` from index 1 on, given the predecessor:
return false as soon as a block's stored hash differs from its recomputed
hash or its `previousHash` differs from the predecessor's hash. -/
def isChainValidFrom (H : String → String) : List Block → Block → Bool
  | [], _ => true
  | c :: rest, prev =>
    if c.hash ≠ calculateHash H c then false
    else if c.previousHash ≠ prev.hash then false
    else isChainValidFrom H rest c

/-- `isChainValid()`: walk the chain from index 1. -/
def isChainValid (H : String → String) (chain : List Block) : Bool :=
  match chain with
  | [] => true
  | b0 :: rest => isChainValidFrom H rest b0

/-- The two invariants `isChainValid` actually checks, as an indexed
predicate: for every `i > 0`, block `i`'s stored hash equals its recomputed
hash and its `previousHash` equals block `i-1`'s hash. -/
def checkedInvariants (H : String → String) (chain : List Block) : Prop :=
  List.Chain'
    (fun a b => b.hash = calculateHash H b ∧ b.previousHash = a.hash) chain

/-- The Firestore `blockchain` collection plus an error schedule.  `docs`
holds the persisted blocks in ascending-`index` order (one document per
block, keyed by the decimal string of `index`; the stored-datetime
round-trip is the identity on the modelled timestamp).  `putFails` and
`loadFails` say whether writes / reads currently fail. -/
structure Store where
  docs : List Block
  putFails : Bool
  loadFails : Bool
deriving DecidableEq, Repr

/-- The store read `getDocs(query(..., orderBy("index")))`: all blocks in
ascending index order, or a store error. -/
def loadAllOrdered (s : Store) : Except String (List Block) :=
  if s.loadFails then .error "store load failed" else .ok s.docs

/-- Upsert keyed by `index` into the index-ordered document list: the model
of `setDoc(doc(db, "blockchain", block.index.toString()), ...)`. -/
def upsert (b : Block) : List Block → List Block
  | [] => [b]
  | c :: rest =>
    if b.index < c.index then b :: c :: rest
    else if b.index = c.index then b :: rest
    else c :: upsert b rest

/-- The store write `setDoc(...)`, or a store error. -/
def putBlock (s : Store) (b : Block) : Except String Store :=
  if s.putFails then .error "store put failed"
  else .ok { s with docs := upsert b s.docs }

/-- `saveBlockToFirebase`: the `try/catch` swallows a `putBlock` error
(only `console.error` runs), so the caller always sees a normal return;
on error the store is unchanged. -/
def saveBlockToFirebase (s : Store) (b : Block) : Store :=
  match putBlock s b with
  | .ok s2 => s2
  | .error _ => s

/-- `addBlock` including its Firebase write. -/
def addBlockStore (H : String → String) (difficulty fuel : Nat) (s : Store)
    (chain : List Block) (data : BlockData) (ts : Nat) :
    Option (Store × List Block × Block) :=
  match addBlockChain H difficulty fuel chain data ts with
  | none => none
  | some (ch2, nb) => some (saveBlockToFirebase s nb, ch2, nb)

/-- `loadFromFirebase`: on a successful read the chain becomes exactly the
stored blocks, with a fresh genesis mined when the store is empty; on a
read error the `catch` swallows the error and rebuilds a fresh chain with
a new genesis block.  `none` models non-termination of genesis mining. -/
def loadFromFirebase (H : String → String) (difficulty fuel : Nat)
    (s : Store) (ts : Nat) : Option (List Block) :=
  match loadAllOrdered s with
  | .ok docs =>
    if docs.isEmpty then (createGenesisBlock H difficulty ts fuel).map ([·])
    else some docs
  | .error _ => (createGenesisBlock H difficulty ts fuel).map ([·])

/-- `createVoteHash(electionId, candidateId, voterId)`:
the digest of `electionId|candidateId|voterId|now`. -/
def createVoteHash (H : String → String) (electionId : String)
    (candidateId : Nat) (voterId : String) (ts : Nat) : String :=
  H (electionId ++ "|" ++ natStr candidateId ++ "|" ++ voterId ++ "|" ++ natStr ts)

/-- The vote payload built by `recordVoteOnBlockchain`. -/
def mkVoteData (H : String → String) (electionId : String) (candidateId : Nat)
    (voterId : String) (ts : Nat) : BlockData :=
  .vote electionId candidateId (H voterId)
    (createVoteHash H electionId candidateId voterId ts) ts

/-- The result record `{ success, transactionHash?, error? }`. -/
structure VoteResult where
  success : Bool
  transactionHash : Option String
  error : Option String
deriving DecidableEq, Repr

/-- `recordVoteOnBlockchain`: construct a `Blockchain` (whose constructor
mines a throwaway genesis block), reload from the store, build the vote
payload and append it.  Every store error on this path is caught further
down (`loadFromFirebase`, `saveBlockToFirebase`), so whenever the call
returns it returns `success: true` with the new block's hash; `none`
models a run whose mining loop does not terminate. -/
def recordVoteOnBlockchain (H : String → String) (difficulty fuel : Nat)
    (s : Store) (electionId : String) (candidateId : Nat) (voterId : String)
    (ts : Nat) : Option (Store × VoteResult) :=
  match createGenesisBlock H difficulty ts fuel with
  | none => none
  | some _ =>
    match loadFromFirebase H difficulty fuel s ts with
    | none => none
    | some chain =>
      match addBlockStore H difficulty fuel s chain
          (mkVoteData H electionId candidateId voterId ts) ts with
      | none => none
      | some (s2, _, nb) =>
        some (s2, { success := true, transactionHash := some nb.hash,
                    error := none })

/-- `verifyBlockchain`: construct a `Blockchain`, reload from the store,
and report `{ valid: isChainValid(), blockCount: chain.length }`. -/
def verifyBlockchain (H : String → String) (difficulty fuel : Nat)
    (s : Store) (ts : Nat) : Option (Bool × Nat) :=
  match createGenesisBlock H difficulty ts fuel with
  | none => none
  | some _ =>
    match loadFromFirebase H difficulty fuel s ts with
    | none => none
    | some chain => some (isChainValid H chain, chain.length)

/-- `b2.data` is `b1.data` with exactly the `candidateId` field changed. -/
def dataCandidateOnlyChanged : BlockData → BlockData → Prop
  | .vote e c vih vh t, .vote e2 c2 vih2 vh2 t2 =>
      e = e2 ∧ c ≠ c2 ∧ vih = vih2 ∧ vh = vh2 ∧ t = t2
  | _, _ => False

instance : ∀ x y, Decidable (dataCandidateOnlyChanged x y) := fun x y => by
  cases x <;> cases y <;> simp only [dataCandidateOnlyChanged] <;> infer_instance

/-- `b2` is `b1` with its stored hash kept and exactly one other field
mutated: a changed `index`, `timestamp`, `previousHash` or `nonce`, a
changed `payload.candidateId`, or a payload whose serialized form differs. -/
def tamperedKeepHash (b b2 : Block) : Prop :=
  b2.hash = b.hash ∧
  ((b2 = { b with index := b2.index } ∧ b2.index ≠ b.index) ∨
   (b2 = { b with timestamp := b2.timestamp } ∧ b2.timestamp ≠ b.timestamp) ∨
   (b2 = { b with previousHash := b2.previousHash } ∧
     b2.previousHash ≠ b.previousHash) ∨
   (b2 = { b with nonce := b2.nonce } ∧ b2.nonce ≠ b.nonce) ∨
   (b2 = { b with data := b2.data } ∧
     dataCandidateOnlyChanged b.data b2.data) ∨
   (b2 = { b with data := b2.data } ∧
     jsonStringify b2.data ≠ jsonStringify b.data))

instance (b b2 : Block) : Decidable (tamperedKeepHash b b2) := by
  unfold tamperedKeepHash
  infer_instance

/-- A digest function that ignores its input: used to build small concrete
runs where mining succeeds immediately. -/
def constZeroHash : String → String := fun _ => "0"

/-- An injective digest function under which every digest starts with a
zero, so difficulty-1 mining succeeds at the first attempt. -/
def zeroPrepend : String → String := fun s => "0" ++ s

/-- Decimal value of a digit string (inverse of `natStr`, used to prove
`natStr` injective). -/
def digitsVal (l : List Char) : Nat :=
  l.foldl (fun acc c => 10 * acc + (c.toNat - 48)) 0

/-- The invariants every in-memory chain built by the ledger operations
satisfies: non-empty, contiguous indices `0, 1, ...`, recompute-equals-
stored for every block, and `previousHash` linkage. -/
def goodChain (H : String → String) (chain : List Block) : Prop :=
  chain ≠ [] ∧
  (∀ i (h : i < chain.length), (chain.get ⟨i, h⟩).index = i) ∧
  (∀ b ∈ chain, b.hash = calculateHash H b) ∧
  List.Chain' (fun a b => b.previousHash = a.hash) chain

/-- The store's documents are strictly ascending in `index` (Firestore keys
them by `index`, so indices are unique, and loads order by `index`). -/
def storeSorted (s : Store) : Prop :=
  List.Pairwise (fun a b => a.index < b.index) s.docs

/-- Placeholder block used as the default of `List.getD`. -/
def dummyBlock : Block :=
  { index := 0, timestamp := 0, data := .genesis "", previousHash := "",
    hash := "", nonce := 0 }

/-- A block as `mineBlock` receives it: empty hash, nonce 0. -/
def exFreshBlock : Block :=
  { index := 0, timestamp := 0, data := .genesis "m", previousHash := "p",
    hash := "", nonce := 0 }

/-- First block of the chain that refutes claim C2: wrong genesis index and
`previousHash`, and a hash without leading zeros. -/
def exC2b0 : Block :=
  { index := 7, timestamp := 0, data := .genesis "g", previousHash := "5",
    hash := "zz", nonce := 0 }

/-- Fields of the second block of the C2 chain, before its hash is set. -/
def exC2b1core : Block :=
  { index := 3, timestamp := 0, data := .genesis "g", previousHash := "zz",
    hash := "", nonce := 0 }

/-- Second block of the C2 chain: correct stored hash (under the identity
digest) and correct linkage, but non-contiguous index and no leading
zeros. -/
def exC2b1 : Block := { exC2b1core with hash := calculateHash id exC2b1core }

/-- The chain refuting claim C2. -/
def exC2chain : List Block := [exC2b0, exC2b1]

/-- A store whose writes fail (reads succeed, nothing stored yet). -/
def exPutFailStore : Store := { docs := [], putFails := true, loadFails := false }

/-- A store holding one stale block whose reads fail. -/
def exLoadFailStore : Store :=
  { docs := [{ index := 3, timestamp := 0, data := .genesis "stale",
               previousHash := "x", hash := "y", nonce := 0 }],
    putFails := false, loadFails := true }

/-- The vote payload used in the concrete C1 run. -/
def exC1payload : BlockData := .vote "e" 1 "vh" "h" 5

/-- Concrete two-block chain built by the ledger operations under
`zeroPrepend` at difficulty 1. -/
def exC1chain : List Block :=
  (buildChain zeroPrepend 1 2 [(exC1payload, 7)] 0).getD []

/-- Block 1 of `exC1chain` with its nonce tampered and its hash kept. -/
def exC1tampered : Block := { exC1chain.getD 1 dummyBlock with nonce := 5 }

/-- An empty, healthy store. -/
def exGoodStore : Store := { docs := [], putFails := false, loadFails := false }

/-- Result of the first concrete `recordVoteOnBlockchain` call (C10 run). -/
def exC10step1 : Store × VoteResult :=
  (recordVoteOnBlockchain zeroPrepend 1 3 exGoodStore "e1" 1 "v1" 0).getD
    (exGoodStore, { success := false, transactionHash := none, error := none })

/-- Result of the second concrete `recordVoteOnBlockchain` call, replaying
the same voter against the store the first call produced (C10 run). -/
def exC10step2 : Store × VoteResult :=
  (recordVoteOnBlockchain zeroPrepend 1 3 exC10step1.1 "e1" 1 "v1" 9).getD
    (exGoodStore, { success := false, transactionHash := none, error := none })

/-- The block `mineBlock` produces from `exFreshBlock` at difficulty 1 under
the constant digest. -/
def exMinedBlock : Block := (mineLoop constZeroHash 1 exFreshBlock 2).getD dummyBlock

/-- The genesis block mined at difficulty 1 under the constant digest at
time 0. -/
def exGenesisConst : Block := (createGenesisBlock constZeroHash 1 0 2).getD dummyBlock

/-! ## Decimal rendering: value round-trip and injectivity -/

theorem digitsVal_append_singleton (l : List Char) (c : Char) :
    digitsVal (l ++ [c]) = 10 * digitsVal l + (c.toNat - 48) := by
  simp [digitsVal, List.foldl_append]

theorem digitChar_toNat_of_lt_ten (n : Nat) (h : n < 10) :
    (Nat.digitChar n).toNat = 48 + n := by
  interval_cases n <;> rfl

theorem natDigits_val (fuel n : Nat) (h : n < fuel) :
    digitsVal (natDigits fuel n) = n := by
  induction fuel generalizing n with
  | zero => omega
  | succ f ih =>
    by_cases hn : n < 10
    · simp only [natDigits, if_pos hn, digitsVal, List.foldl_cons, List.foldl_nil]
      rw [digitChar_toNat_of_lt_ten n hn]
      omega
    · have h10 : 0 < n := by omega
      have hdiv : n / 10 < n := Nat.div_lt_self h10 (by omega)
      simp only [natDigits, if_neg hn]
      rw [digitsVal_append_singleton, ih (n / 10) (by omega),
        digitChar_toNat_of_lt_ten (n % 10) (Nat.mod_lt n (by omega))]
      omega

theorem natStr_inj {m n : Nat} (h : natStr m = natStr n) : m = n := by
  have hd : natDigits (m + 1) m = natDigits (n + 1) n := congrArg String.data h
  have := congrArg digitsVal hd
  rwa [natDigits_val (m + 1) m (Nat.lt_succ_self m),
    natDigits_val (n + 1) n (Nat.lt_succ_self n)] at this

/-! ## String concatenation cancellation -/

theorem str_append_cancel_right {a b c : String} (h : a ++ c = b ++ c) :
    a = b := by
  apply String.ext
  have hd := congrArg String.data h
  simp only [String.data_append] at hd
  exact List.append_cancel_right hd

theorem str_append_cancel_left {a b c : String} (h : a ++ b = a ++ c) :
    b = c := by
  apply String.ext
  have hd := congrArg String.data h
  simp only [String.data_append] at hd
  exact List.append_cancel_left hd

theorem zeroPrepend_injective : Function.Injective zeroPrepend := by
  intro a b h
  exact str_append_cancel_left (a := "0") h

/-! ## A single changed field changes the hashed input -/

theorem hashInput_index_ne (b : Block) (i : Nat) (hne : i ≠ b.index) :
    hashInput { b with index := i } ≠ hashInput b := by
  intro h
  have hd := congrArg String.data h
  simp only [hashInput, String.data_append, List.append_assoc] at hd
  have h1 : (natStr i).data = (natStr b.index).data :=
    List.append_cancel_right hd
  exact hne (natStr_inj (String.ext h1))

theorem hashInput_previousHash_ne (b : Block) (p : String)
    (hne : p ≠ b.previousHash) :
    hashInput { b with previousHash := p } ≠ hashInput b := by
  intro h
  have hd := congrArg String.data h
  simp only [hashInput, String.data_append, List.append_assoc] at hd
  have h1 := List.append_cancel_left hd
  have h2 : p.data = b.previousHash.data := List.append_cancel_right h1
  exact hne (String.ext h2)

theorem hashInput_timestamp_ne (b : Block) (t : Nat)
    (hne : t ≠ b.timestamp) :
    hashInput { b with timestamp := t } ≠ hashInput b := by
  intro h
  have hd := congrArg String.data h
  simp only [hashInput, String.data_append, List.append_assoc] at hd
  have h1 := List.append_cancel_left (List.append_cancel_left hd)
  have h2 : (natStr t).data = (natStr b.timestamp).data :=
    List.append_cancel_right h1
  exact hne (natStr_inj (String.ext h2))

theorem hashInput_data_ne (b : Block) (d : BlockData)
    (hne : jsonStringify d ≠ jsonStringify b.data) :
    hashInput { b with data := d } ≠ hashInput b := by
  intro h
  have hd := congrArg String.data h
  simp only [hashInput, String.data_append, List.append_assoc] at hd
  have h1 :=
    List.append_cancel_left (List.append_cancel_left (List.append_cancel_left hd))
  have h2 : (jsonStringify d).data = (jsonStringify b.data).data :=
    List.append_cancel_right h1
  exact hne (String.ext h2)

theorem hashInput_nonce_ne (b : Block) (n : Nat) (hne : n ≠ b.nonce) :
    hashInput { b with nonce := n } ≠ hashInput b := by
  intro h
  have hd := congrArg String.data h
  simp only [hashInput, String.data_append, List.append_assoc] at hd
  have h1 :=
    List.append_cancel_left (List.append_cancel_left
      (List.append_cancel_left (List.append_cancel_left hd)))
  exact hne (natStr_inj (String.ext h1))

theorem jsonStringify_vote_candidate_ne (e vih vh : String) (c c2 t : Nat)
    (hne : c ≠ c2) :
    jsonStringify (.vote e c vih vh t) ≠ jsonStringify (.vote e c2 vih vh t) := by
  intro h
  have hd := congrArg String.data h
  simp only [jsonStringify, String.data_append, List.append_assoc] at hd
  have h1 :=
    List.append_cancel_left (List.append_cancel_left (List.append_cancel_left hd))
  have h2 : (natStr c).data = (natStr c2).data := List.append_cancel_right h1
  exact hne (natStr_inj (String.ext h2))

theorem dataCandidateOnlyChanged_json_ne (x y : BlockData)
    (h : dataCandidateOnlyChanged x y) : jsonStringify y ≠ jsonStringify x := by
  cases x with
  | genesis m => cases y <;> simp [dataCandidateOnlyChanged] at h
  | vote e c vih vh t =>
    cases y with
    | genesis m2 => simp [dataCandidateOnlyChanged] at h
    | vote e2 c2 vih2 vh2 t2 =>
      obtain ⟨he, hc, hvih, hvh, ht2⟩ := h
      subst he; subst hvih; subst hvh; subst ht2
      exact jsonStringify_vote_candidate_ne e vih vh c2 c t (Ne.symm hc)

theorem tampered_hashInput_ne (b b2 : Block) (ht : tamperedKeepHash b b2) :
    hashInput b2 ≠ hashInput b := by
  obtain ⟨-, hcase⟩ := ht
  rcases hcase with ⟨heq, hne⟩ | ⟨heq, hne⟩ | ⟨heq, hne⟩ | ⟨heq, hne⟩ |
    ⟨heq, hdc⟩ | ⟨heq, hne⟩
  · rw [heq]; exact hashInput_index_ne b b2.index hne
  · rw [heq]; exact hashInput_timestamp_ne b b2.timestamp hne
  · rw [heq]; exact hashInput_previousHash_ne b b2.previousHash hne
  · rw [heq]; exact hashInput_nonce_ne b b2.nonce hne
  · rw [heq]
    exact hashInput_data_ne b b2.data
      (dataCandidateOnlyChanged_json_ne b.data b2.data hdc)
  · rw [heq]; exact hashInput_data_ne b b2.data hne

/-! ## Mining loop: invariants, freshness, minimality -/

theorem strTake_empty (n : Nat) : strTake "" n = "" := by
  simp [strTake, List.take_nil]

theorem empty_ne_target (d : Nat) (hd : 1 ≤ d) : ("" : String) ≠ target d := by
  intro h
  have hdata := congrArg String.data h
  have : ([] : List Char) = List.replicate d '0' := hdata
  have := congrArg List.length this
  simp at this
  omega

theorem stepBlock_hash (H : String → String) (b : Block) :
    (stepBlock H b).hash = calculateHash H (stepBlock H b) := rfl

theorem stepBlock_nonce (H : String → String) (b : Block) :
    (stepBlock H b).nonce = b.nonce + 1 := rfl

theorem mineLoop_spec (H : String → String) (d : Nat) :
    ∀ (fuel : Nat) (b b2 : Block), mineLoop H d b fuel = some b2 →
      b2.index = b.index ∧ b2.previousHash = b.previousHash ∧
      b2.timestamp = b.timestamp ∧ b2.data = b.data ∧
      strTake b2.hash d = target d ∧
      (b2 = b ∨ (b.nonce + 1 ≤ b2.nonce ∧ b2.hash = calculateHash H b2)) := by
  intro fuel
  induction fuel with
  | zero => intro b b2 h; simp [mineLoop] at h
  | succ f ih =>
    intro b b2 h
    simp only [mineLoop] at h
    by_cases hc : strTake b.hash d = target d
    · rw [if_pos hc] at h
      obtain rfl : b = b2 := Option.some.inj h
      exact ⟨rfl, rfl, rfl, rfl, hc, Or.inl rfl⟩
    · rw [if_neg hc] at h
      obtain ⟨h1, h2, h3, h4, h5, h6⟩ := ih _ b2 h
      refine ⟨h1, h2, h3, h4, h5, Or.inr ?_⟩
      rcases h6 with rfl | ⟨hn, hh⟩
      · exact ⟨Nat.le_refl _, stepBlock_hash H b⟩
      · rw [stepBlock_nonce] at hn
        exact ⟨by omega, hh⟩

theorem mineLoop_stay (H : String → String) (d fuel : Nat) (b b2 : Block)
    (h : mineLoop H d b fuel = some b2) (hne : b2 ≠ b) :
    strTake b.hash d ≠ target d := by
  cases fuel with
  | zero => simp [mineLoop] at h
  | succ f =>
    simp only [mineLoop] at h
    by_cases hc : strTake b.hash d = target d
    · rw [if_pos hc] at h
      exact absurd (Option.some.inj h).symm hne
    · exact hc

theorem mineLoop_min (H : String → String) (d : Nat) :
    ∀ (fuel : Nat) (b b2 : Block), mineLoop H d b fuel = some b2 →
      ∀ m, b.nonce < m → m < b2.nonce →
        strTake (H (hashInput { b with nonce := m })) d ≠ target d := by
  intro fuel
  induction fuel with
  | zero => intro b b2 h; simp [mineLoop] at h
  | succ f ih =>
    intro b b2 h m hm1 hm2
    simp only [mineLoop] at h
    by_cases hc : strTake b.hash d = target d
    · rw [if_pos hc] at h
      obtain rfl : b = b2 := Option.some.inj h
      omega
    · rw [if_neg hc] at h
      rcases Nat.lt_or_ge (b.nonce + 1) m with hgt | hge
      · have hgt2 : (stepBlock H b).nonce < m := by
          rw [stepBlock_nonce]; exact hgt
        exact ih _ b2 h m hgt2 hm2
      · have hm : m = b.nonce + 1 := by omega
        subst hm
        have hne : b2 ≠ stepBlock H b := by
          intro he
          rw [he, stepBlock_nonce] at hm2
          omega
        exact mineLoop_stay H d f _ b2 h hne

theorem mineLoop_fresh (H : String → String) (d fuel : Nat) (b b2 : Block)
    (hd : 1 ≤ d) (hb : b.hash = "") (h : mineLoop H d b fuel = some b2) :
    b2.index = b.index ∧ b2.previousHash = b.previousHash ∧
    b2.timestamp = b.timestamp ∧ b2.data = b.data ∧
    strTake b2.hash d = target d ∧ b2.hash = calculateHash H b2 ∧
    b.nonce + 1 ≤ b2.nonce := by
  obtain ⟨h1, h2, h3, h4, h5, h6⟩ := mineLoop_spec H d fuel b b2 h
  rcases h6 with rfl | ⟨hn, hh⟩
  · exfalso
    rw [hb, strTake_empty] at h5
    exact empty_ne_target d hd h5
  · exact ⟨h1, h2, h3, h4, h5, hh, hn⟩

/-! ## Chain validation: characterization and preservation -/

theorem isChainValidFrom_iff (H : String → String) :
    ∀ (rest : List Block) (prev : Block),
      isChainValidFrom H rest prev = true ↔
        List.Chain'
          (fun a b => b.hash = calculateHash H b ∧ b.previousHash = a.hash)
          (prev :: rest) := by
  intro rest
  induction rest with
  | nil =>
    intro prev
    simp [isChainValidFrom, List.chain'_singleton]
  | cons c rest2 ih =>
    intro prev
    rw [List.chain'_cons]
    by_cases h1 : c.hash = calculateHash H c
    · by_cases h2 : c.previousHash = prev.hash
      · rw [show isChainValidFrom H (c :: rest2) prev =
            isChainValidFrom H rest2 c from by
          simp [isChainValidFrom, h1, h2]]
        rw [ih c]
        simp [h1, h2]
      · simp [isChainValidFrom, h1, h2]
    · simp [isChainValidFrom, h1]

theorem isChainValid_iff (H : String → String) (chain : List Block) :
    isChainValid H chain = true ↔ checkedInvariants H chain := by
  cases chain with
  | nil => simp [isChainValid, checkedInvariants]
  | cons b0 rest =>
    simp only [isChainValid, checkedInvariants]
    exact isChainValidFrom_iff H rest b0

theorem goodChain_valid (H : String → String) (chain : List Block)
    (hg : goodChain H chain) : isChainValid H chain = true := by
  obtain ⟨-, -, hrec, hlink⟩ := hg
  rw [isChainValid_iff]
  unfold checkedInvariants
  rw [List.chain'_iff_get] at hlink ⊢
  intro i h
  exact ⟨hrec _ (List.get_mem _ _ _), hlink i h⟩

/-! ## The chains built by the ledger operations satisfy `goodChain` -/

theorem createGenesisBlock_spec (H : String → String) (d ts fuel : Nat)
    (g : Block) (hd : 1 ≤ d) (h : createGenesisBlock H d ts fuel = some g) :
    g.index = 0 ∧ g.previousHash = "0" ∧
    g.data = .genesis genesisMessage ∧ g.timestamp = ts ∧
    g.hash = calculateHash H g ∧ strTake g.hash d = target d ∧
    1 ≤ g.nonce := by
  obtain ⟨h1, h2, h3, h4, h5, h6, h7⟩ :=
    mineLoop_fresh H d fuel _ g hd rfl h
  exact ⟨h1, h2, h4, h3, h6, h5, h7⟩

theorem goodChain_singleton (H : String → String) (g : Block)
    (hidx : g.index = 0) (hrec : g.hash = calculateHash H g) :
    goodChain H [g] := by
  refine ⟨by simp, ?_, ?_, List.chain'_singleton g⟩
  · intro i h
    simp only [List.length_singleton, Nat.lt_one_iff] at h
    subst h
    simpa using hidx
  · intro b hb
    simp at hb
    rw [hb]
    exact hrec

theorem addBlockChain_spec (H : String → String) (d fuel : Nat)
    (ch ch2 : List Block) (data : BlockData) (ts : Nat) (nb : Block)
    (hd : 1 ≤ d) (h : addBlockChain H d fuel ch data ts = some (ch2, nb)) :
    ∃ hne : ch ≠ [],
      ch2 = ch ++ [nb] ∧ nb.data = data ∧ nb.timestamp = ts ∧
      nb.hash = calculateHash H nb ∧ strTake nb.hash d = target d ∧
      nb.index = (ch.getLast hne).index + 1 ∧
      nb.previousHash = (ch.getLast hne).hash := by
  unfold addBlockChain at h
  split at h
  · exact absurd h (by simp)
  · rename_i prev hl
    have hne : ch ≠ [] := by
      intro he
      rw [he] at hl
      simp at hl
    have hprev : prev = ch.getLast hne := by
      rw [List.getLast?_eq_getLast ch hne] at hl
      exact (Option.some.inj hl).symm
    split at h
    · exact absurd h (by simp)
    · rename_i nb2 hm
      obtain ⟨hch2, hnb⟩ : ch ++ [nb2] = ch2 ∧ nb2 = nb := by
        have := Option.some.inj h
        exact ⟨congrArg Prod.fst this, congrArg Prod.snd this⟩
      subst hnb
      obtain ⟨h1, h2, h3, h4, h5, h6, -⟩ :=
        mineLoop_fresh H d fuel _ nb2 hd rfl hm
      exact ⟨hne, hch2.symm, h4, h3, h6, h5, by rw [h1, hprev],
        by rw [h2, hprev]⟩

theorem getLast_index (H : String → String) (ch : List Block)
    (hg : goodChain H ch) (hne : ch ≠ []) :
    (ch.getLast hne).index = ch.length - 1 := by
  obtain ⟨-, hidx, -, -⟩ := hg
  have hlen : 0 < ch.length := List.length_pos.mpr hne
  rw [List.getLast_eq_getElem]
  have := hidx (ch.length - 1) (by omega)
  simpa using this

theorem goodChain_snoc (H : String → String) (ch : List Block) (nb : Block)
    (hg : goodChain H ch) (hne : ch ≠ [])
    (hidx : nb.index = (ch.getLast hne).index + 1)
    (hprev : nb.previousHash = (ch.getLast hne).hash)
    (hrec : nb.hash = calculateHash H nb) :
    goodChain H (ch ++ [nb]) := by
  obtain ⟨-, hidxs, hrecs, hlink⟩ := hg
  have hlen : 1 ≤ ch.length := by
    cases ch with
    | nil => exact absurd rfl hne
    | cons a l => simp
  have hnbidx : nb.index = ch.length := by
    rw [hidx, getLast_index H ch ⟨hne, hidxs, hrecs, hlink⟩ hne]
    omega
  refine ⟨by simp, ?_, ?_, ?_⟩
  · intro i h
    rw [List.length_append] at h
    simp only [List.get_eq_getElem]
    rcases Nat.lt_or_ge i ch.length with hlt | hge
    · rw [List.getElem_append_left hlt]
      have := hidxs i hlt
      simpa using this
    · have hi : i = ch.length := by simp at h; omega
      subst hi
      rw [List.getElem_append_right (Nat.le_refl _)]
      simpa using hnbidx
  · intro b hb
    rcases List.mem_append.mp hb with hb | hb
    · exact hrecs b hb
    · simp at hb
      rw [hb]
      exact hrec
  · rw [List.chain'_append]
    refine ⟨hlink, List.chain'_singleton nb, ?_⟩
    intro x hx y hy
    rw [List.getLast?_eq_getLast ch hne] at hx
    simp at hx hy
    rw [← hx, ← hy]
    exact hprev

theorem foldl_addBlock_good (H : String → String) (d fuel : Nat) :
    ∀ (ps : List (BlockData × Nat)) (ch ch2 : List Block), 1 ≤ d →
      goodChain H ch →
      ps.foldlM
        (fun c p => (addBlockChain H d fuel c p.1 p.2).map Prod.fst) ch =
        some ch2 →
      goodChain H ch2 ∧ ch2.length = ch.length + ps.length := by
  intro ps
  induction ps with
  | nil =>
    intro ch ch2 hd hg h
    simp only [List.foldlM_nil] at h
    obtain rfl : ch = ch2 := Option.some.inj h
    exact ⟨hg, by simp⟩
  | cons p ps2 ih =>
    intro ch ch2 hd hg h
    rw [List.foldlM_cons] at h
    cases ha : addBlockChain H d fuel ch p.1 p.2 with
    | none =>
      rw [ha] at h
      simp at h
    | some pr =>
      rw [ha] at h
      obtain ⟨c2, nb⟩ := pr
      replace h : ps2.foldlM
          (fun c p => (addBlockChain H d fuel c p.1 p.2).map Prod.fst) c2 =
          some ch2 := h
      obtain ⟨hne, hch2, -, -, hrec, -, hidx, hprev⟩ :=
        addBlockChain_spec H d fuel ch c2 p.1 p.2 nb hd ha
      have hg2 : goodChain H c2 := by
        rw [hch2]
        exact goodChain_snoc H ch nb hg hne hidx hprev hrec
      obtain ⟨hgood, hlen⟩ := ih c2 ch2 hd hg2 h
      refine ⟨hgood, ?_⟩
      rw [hlen, hch2]
      simp
      omega

theorem buildChain_good (H : String → String) (d fuel : Nat)
    (ps : List (BlockData × Nat)) (ts0 : Nat) (chain : List Block)
    (hd : 1 ≤ d) (h : buildChain H d fuel ps ts0 = some chain) :
    goodChain H chain ∧ chain.length = ps.length + 1 := by
  unfold buildChain at h
  cases hgen : createGenesisBlock H d ts0 fuel with
  | none => rw [hgen] at h; simp at h
  | some g =>
    rw [hgen] at h
    obtain ⟨hidx, -, -, -, hrec, -, -⟩ :=
      createGenesisBlock_spec H d ts0 fuel g hd hgen
    obtain ⟨hgood, hlen⟩ :=
      foldl_addBlock_good H d fuel ps [g] chain hd
        (goodChain_singleton H g hidx hrec) h
    refine ⟨hgood, ?_⟩
    rw [hlen]
    simp
    omega

/-! ## Store operations: upsert keeps order and membership -/

theorem mem_upsert_self (b : Block) : ∀ l : List Block, b ∈ upsert b l := by
  intro l
  induction l with
  | nil => simp [upsert]
  | cons c rest ih =>
    by_cases h1 : b.index < c.index
    · simp [upsert, h1]
    · by_cases h2 : b.index = c.index
      · simp [upsert, h1, h2]
      · simp only [upsert, if_neg h1, if_neg h2]
        exact List.mem_cons_of_mem c ih

theorem mem_upsert (a b : Block) :
    ∀ l : List Block, a ∈ upsert b l → a = b ∨ a ∈ l := by
  intro l
  induction l with
  | nil => intro h; simp [upsert] at h; exact Or.inl h
  | cons c rest ih =>
    intro h
    by_cases h1 : b.index < c.index
    · simp only [upsert, if_pos h1] at h
      rcases List.mem_cons.mp h with rfl | h
      · exact Or.inl rfl
      · exact Or.inr h
    · by_cases h2 : b.index = c.index
      · simp only [upsert, if_neg h1, if_pos h2] at h
        rcases List.mem_cons.mp h with rfl | h
        · exact Or.inl rfl
        · exact Or.inr (List.mem_cons_of_mem c h)
      · simp only [upsert, if_neg h1, if_neg h2] at h
        rcases List.mem_cons.mp h with rfl | h
        · exact Or.inr (List.mem_cons_self _ _)
        · rcases ih h with h | h
          · exact Or.inl h
          · exact Or.inr (List.mem_cons_of_mem c h)

theorem mem_upsert_of_mem (a b : Block) :
    ∀ l : List Block, a ∈ l → a.index ≠ b.index → a ∈ upsert b l := by
  intro l
  induction l with
  | nil => intro h; simp at h
  | cons c rest ih =>
    intro h hne
    by_cases h1 : b.index < c.index
    · simp only [upsert, if_pos h1]
      exact List.mem_cons_of_mem b h
    · by_cases h2 : b.index = c.index
      · simp only [upsert, if_neg h1, if_pos h2]
        rcases List.mem_cons.mp h with rfl | h
        · exact absurd h2.symm hne
        · exact List.mem_cons_of_mem b h
      · simp only [upsert, if_neg h1, if_neg h2]
        rcases List.mem_cons.mp h with rfl | h
        · exact List.mem_cons_self _ _
        · exact List.mem_cons_of_mem c (ih h hne)

theorem pairwise_upsert (b : Block) :
    ∀ l : List Block,
      List.Pairwise (fun x y : Block => x.index < y.index) l →
      List.Pairwise (fun x y : Block => x.index < y.index) (upsert b l) := by
  intro l
  induction l with
  | nil => intro _; simp [upsert]
  | cons c rest ih =>
    intro hp
    rw [List.pairwise_cons] at hp
    obtain ⟨hc, hrest⟩ := hp
    by_cases h1 : b.index < c.index
    · simp only [upsert, if_pos h1]
      rw [List.pairwise_cons]
      refine ⟨?_, List.pairwise_cons.mpr ⟨hc, hrest⟩⟩
      intro a ha
      rcases List.mem_cons.mp ha with rfl | ha
      · exact h1
      · exact Nat.lt_trans h1 (hc a ha)
    · by_cases h2 : b.index = c.index
      · simp only [upsert, if_neg h1, if_pos h2]
        rw [List.pairwise_cons]
        refine ⟨?_, hrest⟩
        intro a ha
        rw [h2]
        exact hc a ha
      · simp only [upsert, if_neg h1, if_neg h2]
        rw [List.pairwise_cons]
        refine ⟨?_, ih hrest⟩
        intro a ha
        rcases mem_upsert a b rest ha with rfl | ha
        · omega
        · exact hc a ha

theorem pairwise_le_getLast :
    ∀ (l : List Block),
      List.Pairwise (fun x y : Block => x.index < y.index) l →
      ∀ (hne : l ≠ []) (a : Block), a ∈ l →
        a.index ≤ (l.getLast hne).index := by
  intro l
  induction l with
  | nil => intro _ hne; exact absurd rfl hne
  | cons c rest ih =>
    intro hp hne a ha
    rw [List.pairwise_cons] at hp
    obtain ⟨hc, hrest⟩ := hp
    cases rest with
    | nil =>
      simp at ha
      simp [List.getLast, ha]
    | cons r rest2 =>
      have hne2 : r :: rest2 ≠ [] := by simp
      rw [List.getLast_cons hne2]
      rcases List.mem_cons.mp ha with rfl | ha
      · exact Nat.le_of_lt
          (hc _ (List.getLast_mem hne2))
      · exact ih hrest hne2 a ha

/-! ## Gateway and vote-recording paths -/

theorem saveBlockToFirebase_ok (s : Store) (b : Block)
    (hp : s.putFails = false) :
    saveBlockToFirebase s b = { s with docs := upsert b s.docs } := by
  simp [saveBlockToFirebase, putBlock, hp]

theorem saveBlockToFirebase_fail (s : Store) (b : Block)
    (hp : s.putFails = true) : saveBlockToFirebase s b = s := by
  simp [saveBlockToFirebase, putBlock, hp]

theorem loadFromFirebase_nonempty (H : String → String) (d fuel : Nat)
    (s : Store) (ts : Nat) (hl : s.loadFails = false) (hne : s.docs ≠ []) :
    loadFromFirebase H d fuel s ts = some s.docs := by
  unfold loadFromFirebase loadAllOrdered
  rw [hl]
  simp [List.isEmpty_iff, hne]

theorem loadFromFirebase_failure (H : String → String) (d fuel : Nat)
    (s : Store) (ts : Nat) (hl : s.loadFails = true) :
    loadFromFirebase H d fuel s ts =
      (createGenesisBlock H d ts fuel).map ([·]) := by
  unfold loadFromFirebase loadAllOrdered
  rw [hl]
  simp

theorem addBlockChain_shape (H : String → String) (d fuel : Nat)
    (ch ch2 : List Block) (data : BlockData) (ts : Nat) (nb : Block)
    (h : addBlockChain H d fuel ch data ts = some (ch2, nb)) :
    ch2 = ch ++ [nb] := by
  unfold addBlockChain at h
  split at h
  · exact absurd h (by simp)
  · split at h
    · exact absurd h (by simp)
    · rename_i nb2 hm
      have h2 := Option.some.inj h
      have hnb : nb2 = nb := congrArg Prod.snd h2
      have hch : ch ++ [nb2] = ch2 := congrArg Prod.fst h2
      rw [← hch, hnb]

theorem recordVote_spec (H : String → String) (d fuel : Nat) (s : Store)
    (e : String) (c : Nat) (v : String) (ts : Nat) (s2 : Store)
    (r : VoteResult)
    (h : recordVoteOnBlockchain H d fuel s e c v ts = some (s2, r)) :
    ∃ chain nb,
      loadFromFirebase H d fuel s ts = some chain ∧
      addBlockChain H d fuel chain (mkVoteData H e c v ts) ts =
        some (chain ++ [nb], nb) ∧
      s2 = saveBlockToFirebase s nb ∧
      r = { success := true, transactionHash := some nb.hash, error := none } := by
  unfold recordVoteOnBlockchain at h
  split at h
  · exact absurd h (by simp)
  · split at h
    · exact absurd h (by simp)
    · rename_i chain hload
      split at h
      · exact absurd h (by simp)
      · rename_i s4 ch4 nb4 heq
        unfold addBlockStore at heq
        split at heq
        · exact absurd heq (by simp)
        · rename_i ch5 nb5 hadd
          have h5 := Option.some.inj heq
          rw [Prod.mk.injEq, Prod.mk.injEq] at h5
          obtain ⟨hs4, -, hnb⟩ := h5
          have hshape := addBlockChain_shape H d fuel chain ch5
            (mkVoteData H e c v ts) ts nb5 hadd
          have h4 := Option.some.inj h
          rw [Prod.mk.injEq] at h4
          obtain ⟨hs2, hr⟩ := h4
          refine ⟨chain, nb5, hload, ?_, ?_, ?_⟩
          · rw [← hshape]
            exact hadd
          · rw [← hs2, ← hs4]
          · rw [← hr, hnb]


theorem addBlockChain_fields (H : String → String) (d fuel : Nat)
    (ch ch2 : List Block) (data : BlockData) (ts : Nat) (nb : Block)
    (h : addBlockChain H d fuel ch data ts = some (ch2, nb)) :
    ∃ hne : ch ≠ [],
      nb.data = data ∧ nb.index = (ch.getLast hne).index + 1 := by
  unfold addBlockChain at h
  split at h
  · exact absurd h (by simp)
  · rename_i prev hl
    have hne : ch ≠ [] := by
      intro he
      rw [he] at hl
      simp at hl
    have hprev : prev = ch.getLast hne := by
      rw [List.getLast?_eq_getLast ch hne] at hl
      exact (Option.some.inj hl).symm
    split at h
    · exact absurd h (by simp)
    · rename_i nb2 hm
      have h2 := Option.some.inj h
      have hnb : nb2 = nb := congrArg Prod.snd h2
      obtain ⟨h1, -, -, h4, -, -⟩ := mineLoop_spec H d fuel _ nb2 hm
      subst hnb
      exact ⟨hne, h4, by rw [h1, hprev]⟩

/-! ## The claims -/

/-- C1: for every chain built by the ledger, mutating any single non-hash
field of a non-genesis block (index, timestamp, previousHash, nonce, the
payload's candidateId, or any payload change that alters its serialized
form) while keeping the stored hash makes `isChainValid()` return false
(given a collision-free digest). -/
theorem tamper_detected (H : String → String)
    (hinj : Function.Injective H) (d fuel : Nat)
    (ps : List (BlockData × Nat)) (ts0 : Nat) (chain : List Block)
    (hd : 1 ≤ d) (hb : buildChain H d fuel ps ts0 = some chain)
    (i : Nat) (hi1 : 1 ≤ i) (hi2 : i < chain.length) (b2 : Block)
    (ht : tamperedKeepHash (chain.get ⟨i, hi2⟩) b2) :
    isChainValid H (chain.set i b2) = false := by
  obtain ⟨hg, -⟩ := buildChain_good H d fuel ps ts0 chain hd hb
  obtain ⟨-, -, hrec, -⟩ := hg
  have hbrec : (chain.get ⟨i, hi2⟩).hash =
      calculateHash H (chain.get ⟨i, hi2⟩) :=
    hrec _ (List.get_mem _ _ _)
  have hb2 : b2.hash ≠ calculateHash H b2 := by
    intro hcontra
    have hne := tampered_hashInput_ne (chain.get ⟨i, hi2⟩) b2 ht
    have hhash : b2.hash = (chain.get ⟨i, hi2⟩).hash := ht.1
    rw [hhash, hbrec] at hcontra
    have hcontra2 : H (hashInput (chain.get ⟨i, hi2⟩)) = H (hashInput b2) :=
      hcontra
    exact hne (hinj hcontra2).symm
  rw [Bool.eq_false_iff]
  intro htrue
  rw [isChainValid_iff] at htrue
  unfold checkedInvariants at htrue
  rw [List.chain'_iff_get] at htrue
  have hlen : (chain.set i b2).length = chain.length :=
    List.length_set chain i b2
  have hpair := htrue (i - 1) (by omega)
  have hstep : i - 1 + 1 = i := by omega
  simp only [hstep, List.get_eq_getElem] at hpair
  rw [List.getElem_set_self (by omega)] at hpair
  exact hb2 hpair.1

set_option maxRecDepth 16000 in
/-- C1 witness: the concrete two-block chain under the injective digest
`zeroPrepend`, with block 1's nonce changed and its hash kept, fails
validation. -/
theorem tamper_detected_witness :
    isChainValid zeroPrepend (exC1chain.set 1 exC1tampered) = false := by
  have h := tamper_detected zeroPrepend zeroPrepend_injective 1 2
    [(exC1payload, 7)] 0 exC1chain (by decide) (by decide) 1 (by decide)
    (by decide) exC1tampered (by decide)
  exact h

/-- C2 (amended): `isChainValid` walks the chain from index 1 and checks
exactly two conditions, stored hash equals recomputed hash and
`previousHash` equals the predecessor's hash; it returns true iff these
hold at every index, so it never checks the difficulty prefix, index
contiguity, or the genesis invariants. -/
theorem validator_checks_only_recompute_and_link (H : String → String)
    (chain : List Block) :
    isChainValid H chain = true ↔
      ∀ i (h : i + 1 < chain.length),
        ((chain.get ⟨i + 1, h⟩).hash =
            calculateHash H (chain.get ⟨i + 1, h⟩) ∧
         (chain.get ⟨i + 1, h⟩).previousHash =
            (chain.get ⟨i, Nat.lt_of_succ_lt h⟩).hash) := by
  rw [isChainValid_iff]
  unfold checkedInvariants
  rw [List.chain'_iff_get]
  constructor
  · intro hh i hi
    exact hh i (by omega)
  · intro hh i hi
    exact hh i (by omega)

/-- C2 witness: the characterization instantiated at the concrete C2
chain under the identity digest. -/
theorem validator_checks_only_recompute_and_link_witness :
    isChainValid id exC2chain = true ↔
      ∀ i (h : i + 1 < exC2chain.length),
        ((exC2chain.get ⟨i + 1, h⟩).hash =
            calculateHash id (exC2chain.get ⟨i + 1, h⟩) ∧
         (exC2chain.get ⟨i + 1, h⟩).previousHash =
            (exC2chain.get ⟨i, Nat.lt_of_succ_lt h⟩).hash) :=
  validator_checks_only_recompute_and_link id exC2chain

/-- C2 counterexample: a chain with a non-contiguous index, a genesis block
violating the sentinel and index-0 invariants, and hashes without leading
zeros still passes `isChainValid`, though the claim requires false. -/
theorem validator_misses_invariants_cex :
    isChainValid id exC2chain = true ∧
    exC2b1.index ≠ exC2b0.index + 1 ∧
    exC2b0.index ≠ 0 ∧
    exC2b0.previousHash ≠ "0" ∧
    strTake exC2b1.hash 2 ≠ target 2 := by decide

/-- C5 (amended): mining never tests the nonce-0 digest; it tests the
block's initial hash field, then digests for nonces 1, 2, ... in order, so
on a fresh block (empty hash, nonce 0) at difficulty ≥ 1 it seals with the
smallest nonce ≥ 1 whose digest meets the target. -/
theorem mining_first_positive_nonce (H : String → String) (d fuel : Nat)
    (b b2 : Block) (hd : 1 ≤ d) (hb : b.hash = "") (hn : b.nonce = 0)
    (h : mineLoop H d b fuel = some b2) :
    1 ≤ b2.nonce ∧ b2.hash = calculateHash H b2 ∧
    strTake b2.hash d = target d ∧
    ∀ m, 1 ≤ m → m < b2.nonce →
      strTake (H (hashInput { b with nonce := m })) d ≠ target d := by
  obtain ⟨-, -, -, -, h5, h6, h7⟩ := mineLoop_fresh H d fuel b b2 hd hb h
  refine ⟨by omega, h6, h5, ?_⟩
  intro m hm1 hm2
  exact mineLoop_min H d fuel b b2 h m (by omega) hm2

/-- C5 witness: the concrete fresh block mined at difficulty 1 under the
constant digest is sealed with nonce 1 and a stored hash equal to its
recomputed digest. -/
theorem mining_first_positive_nonce_witness :
    1 ≤ exMinedBlock.nonce ∧
    exMinedBlock.hash = calculateHash constZeroHash exMinedBlock := by
  have h := mining_first_positive_nonce constZeroHash 1 2 exFreshBlock
    exMinedBlock (by decide) (by decide) (by decide) (by decide)
  exact ⟨h.1, h.2.1⟩

/-- C5 counterexample: a block whose nonce-0 digest already meets the
target is still sealed with nonce 1, not nonce 0 as the claim states. -/
theorem mining_skips_nonce_zero_cex :
    strTake (calculateHash constZeroHash exFreshBlock) 1 = target 1 ∧
    (mineLoop constZeroHash 1 exFreshBlock 2).map Block.nonce = some 1 := by
  decide

/-- C6: every block of a chain built by the ledger operations (genesis
included) stores a hash equal to the digest recomputed from its own
fields, at the positive difficulties the ledger is configured with. -/
theorem recompute_equals_stored (H : String → String) (d fuel : Nat)
    (ps : List (BlockData × Nat)) (ts0 : Nat) (chain : List Block)
    (hd : 1 ≤ d) (hb : buildChain H d fuel ps ts0 = some chain) :
    ∀ b ∈ chain, b.hash = calculateHash H b :=
  (buildChain_good H d fuel ps ts0 chain hd hb).1.2.2.1

set_option maxRecDepth 16000 in
/-- C6 witness: recompute-equals-stored holds at block 1 of the concrete
two-block chain. -/
theorem recompute_equals_stored_witness :
    (exC1chain.getD 1 dummyBlock).hash =
      calculateHash zeroPrepend (exC1chain.getD 1 dummyBlock) :=
  recompute_equals_stored zeroPrepend 1 2 [(exC1payload, 7)] 0 exC1chain
    (by decide) (by decide) (exC1chain.getD 1 dummyBlock) (by decide)

/-- C7: appending N payloads to a fresh ledger yields a chain of length
N + 1 with contiguous indices 0..N, correct `previousHash` linkage, and
`isChainValid()` returning true. -/
theorem append_shape_valid (H : String → String) (d fuel : Nat)
    (ps : List (BlockData × Nat)) (ts0 : Nat) (chain : List Block)
    (hd : 1 ≤ d) (hb : buildChain H d fuel ps ts0 = some chain) :
    chain.length = ps.length + 1 ∧
    (∀ i (h : i < chain.length), (chain.get ⟨i, h⟩).index = i) ∧
    List.Chain' (fun a b => b.previousHash = a.hash) chain ∧
    isChainValid H chain = true := by
  obtain ⟨hg, hlen⟩ := buildChain_good H d fuel ps ts0 chain hd hb
  exact ⟨hlen, hg.2.1, hg.2.2.2, goodChain_valid H chain hg⟩

set_option maxRecDepth 16000 in
/-- C7 witness: the concrete chain built from one payload has length 2,
index 1 at position 1, and passes validation. -/
theorem append_shape_valid_witness :
    exC1chain.length = 1 + 1 ∧
    (exC1chain.get ⟨1, by decide⟩).index = 1 ∧
    isChainValid zeroPrepend exC1chain = true := by
  have h := append_shape_valid zeroPrepend 1 2 [(exC1payload, 7)] 0
    exC1chain (by decide) (by decide)
  exact ⟨h.1, h.2.1 1 (by decide), h.2.2.2⟩

/-- C8 (amended): at difficulty 0 the mining loop exits immediately and
returns the block unchanged (its initial hash, not a recomputed digest);
at difficulty ≥ 1, whenever the loop terminates on a fresh block the
resulting hash meets the target and equals the recomputed digest; no
iteration cap bounds the search. -/
theorem mining_target_when_terminates (H : String → String) (d fuel : Nat)
    (b b2 : Block) :
    mineLoop H 0 b (fuel + 1) = some b ∧
    (1 ≤ d → b.hash = "" → mineLoop H d b fuel = some b2 →
      strTake b2.hash d = target d ∧ b2.hash = calculateHash H b2) := by
  constructor
  · show (if strTake b.hash 0 = target 0 then some b
      else mineLoop H 0 (stepBlock H b) fuel) = some b
    rw [if_pos (show strTake b.hash 0 = target 0 from rfl)]
  · intro hd hb h
    obtain ⟨-, -, -, -, h5, h6, -⟩ := mineLoop_fresh H d fuel b b2 hd hb h
    exact ⟨h5, h6⟩

/-- C8 witness: difficulty 0 returns the fresh block unchanged in one
check; difficulty 1 on the same block terminates with a target-matching
recomputed hash. -/
theorem mining_target_when_terminates_witness :
    mineLoop constZeroHash 0 exFreshBlock 1 = some exFreshBlock ∧
    strTake exMinedBlock.hash 1 = target 1 ∧
    exMinedBlock.hash = calculateHash constZeroHash exMinedBlock := by
  have h1 := (mining_target_when_terminates constZeroHash 1 0 exFreshBlock
    exFreshBlock).1
  have h2 := (mining_target_when_terminates constZeroHash 1 2 exFreshBlock
    exMinedBlock).2 (by decide) (by decide) (by decide)
  exact ⟨h1, h2.1, h2.2⟩

/-- C8 counterexample: at difficulty 0 the sealed block keeps its initial
empty hash, which is not the digest of its own fields, contradicting the
claim that the d = 0 case still yields recompute-equals-stored. -/
theorem mining_difficulty_zero_cex :
    mineLoop id 0 exFreshBlock 1 = some exFreshBlock ∧
    exFreshBlock.hash ≠ calculateHash id exFreshBlock := by decide

/-- C9: `isChainValid` never recomputes the genesis block's hash, so
replacing the genesis payload while keeping the stored hash leaves the
chain valid. -/
theorem genesis_tamper_undetected (H : String → String) (d fuel : Nat)
    (ps : List (BlockData × Nat)) (ts0 : Nat) (chain : List Block)
    (g : Block) (rest : List Block) (d2 : BlockData) (hd : 1 ≤ d)
    (hb : buildChain H d fuel ps ts0 = some chain)
    (hc : chain = g :: rest) :
    isChainValid H ({ g with data := d2 } :: rest) = true := by
  obtain ⟨hg, -⟩ := buildChain_good H d fuel ps ts0 chain hd hb
  have hvalid := goodChain_valid H chain hg
  rw [hc] at hvalid
  rw [isChainValid_iff] at hvalid ⊢
  unfold checkedInvariants at hvalid ⊢
  cases rest with
  | nil => exact List.chain'_singleton _
  | cons r rest2 =>
    rw [List.chain'_cons] at hvalid ⊢
    exact ⟨⟨hvalid.1.1, hvalid.1.2⟩, hvalid.2⟩

set_option maxRecDepth 16000 in
/-- C9 witness: swapping the concrete genesis payload for another while
keeping its stored hash leaves the concrete chain valid. -/
theorem genesis_tamper_undetected_witness :
    isChainValid zeroPrepend
      ({ exC1chain.getD 0 dummyBlock with data := .genesis "TAMPERED" } ::
        [exC1chain.getD 1 dummyBlock]) = true := by
  have h := genesis_tamper_undetected zeroPrepend 1 2 [(exC1payload, 7)] 0
    exC1chain (exC1chain.getD 0 dummyBlock) [exC1chain.getD 1 dummyBlock]
    (.genesis "TAMPERED") (by decide) (by decide) (by decide)
  exact h

/-- C3 (amended): whenever `recordVoteOnBlockchain` returns, it reports
success, and when the store write failed the store is unchanged — the
`putBlock` error is swallowed inside `saveBlockToFirebase`, so success does
not imply the vote block was persisted. -/
theorem success_despite_put_failure (H : String → String) (d fuel : Nat)
    (s : Store) (e : String) (c : Nat) (v : String) (ts : Nat) (s2 : Store)
    (r : VoteResult)
    (h : recordVoteOnBlockchain H d fuel s e c v ts = some (s2, r)) :
    r.success = true ∧ (s.putFails = true → s2 = s) := by
  obtain ⟨chain, nb, -, -, hs2, hr⟩ :=
    recordVote_spec H d fuel s e c v ts s2 r h
  refine ⟨by rw [hr], ?_⟩
  intro hp
  rw [hs2, saveBlockToFirebase_fail s nb hp]

set_option maxRecDepth 8000 in
/-- C3 witness: on the concrete store whose writes fail, the call reports
success and leaves the store unchanged. -/
theorem success_despite_put_failure_witness :
    ({ success := true, transactionHash := some "0", error := none } :
      VoteResult).success = true ∧
    (exPutFailStore.putFails = true → exPutFailStore = exPutFailStore) :=
  success_despite_put_failure constZeroHash 1 2 exPutFailStore "e1" 1 "v1" 0
    exPutFailStore
    { success := true, transactionHash := some "0", error := none }
    (by decide)

set_option maxRecDepth 8000 in
/-- C3 counterexample: with a failing store write, the call still returns
success with a transaction hash, while the store remains empty — the vote
is not durably recorded, contradicting the claim. -/
theorem put_failure_swallowed_cex :
    recordVoteOnBlockchain constZeroHash 1 2 exPutFailStore "e1" 1 "v1" 0 =
      some (exPutFailStore,
        { success := true, transactionHash := some "0", error := none }) ∧
    exPutFailStore.docs = [] := by decide

/-- C4 (amended): when loading from the store fails, the error is caught
and the ledger proceeds with a substitute fresh chain holding only a newly
mined genesis block; `verifyBlockchain` then reports the chain as valid
with one block instead of surfacing the error. -/
theorem load_failure_substitutes_fresh_chain (H : String → String)
    (d fuel : Nat) (s : Store) (ts : Nat) (g : Block)
    (hl : s.loadFails = true)
    (hg : createGenesisBlock H d ts fuel = some g) :
    loadFromFirebase H d fuel s ts = some [g] ∧
    verifyBlockchain H d fuel s ts = some (true, 1) := by
  have hload := loadFromFirebase_failure H d fuel s ts hl
  rw [hg] at hload
  have hload2 : loadFromFirebase H d fuel s ts = some [g] := hload
  refine ⟨hload2, ?_⟩
  unfold verifyBlockchain
  rw [hg, hload2]
  rfl

set_option maxRecDepth 8000 in
/-- C4 witness: on the concrete store with a stale block and failing
reads, loading yields a fresh genesis-only chain and verification reports
it valid. -/
theorem load_failure_substitutes_fresh_chain_witness :
    loadFromFirebase constZeroHash 1 2 exLoadFailStore 0 =
      some [exGenesisConst] ∧
    verifyBlockchain constZeroHash 1 2 exLoadFailStore 0 = some (true, 1) :=
  load_failure_substitutes_fresh_chain constZeroHash 1 2 exLoadFailStore 0
    exGenesisConst (by decide) (by decide)

set_option maxRecDepth 8000 in
/-- C4 counterexample: a store whose reads fail and which holds a stale
block: the operation neither aborts nor reports the error — it succeeds
with a substitute one-block chain reported as valid. -/
theorem load_failure_not_reported_cex :
    exLoadFailStore.loadFails = true ∧
    exLoadFailStore.docs ≠ [] ∧
    verifyBlockchain constZeroHash 1 2 exLoadFailStore 0 = some (true, 1) := by
  decide

/-- C10: `recordVoteOnBlockchain` checks nothing about the voter: two
successive calls for the same (electionId, candidateId, voterId) both
report success and the store ends up holding two distinct vote blocks for
that same voter. -/
theorem no_duplicate_vote_guard (H : String → String) (d fuel : Nat)
    (s : Store) (hput : s.putFails = false) (hload0 : s.loadFails = false)
    (hsorted : storeSorted s) (e : String) (c : Nat) (v : String)
    (ts1 ts2 : Nat) (s1 s2 : Store) (r1 r2 : VoteResult)
    (h1 : recordVoteOnBlockchain H d fuel s e c v ts1 = some (s1, r1))
    (h2 : recordVoteOnBlockchain H d fuel s1 e c v ts2 = some (s2, r2)) :
    r1.success = true ∧ r2.success = true ∧
    ∃ b1 b2, b1 ∈ s2.docs ∧ b2 ∈ s2.docs ∧ b1.index ≠ b2.index ∧
      b1.data = mkVoteData H e c v ts1 ∧
      b2.data = mkVoteData H e c v ts2 := by
  obtain ⟨chain1, nb1, hload1, hadd1, hs1, hr1⟩ :=
    recordVote_spec H d fuel s e c v ts1 s1 r1 h1
  obtain ⟨-, hdata1, -⟩ :=
    addBlockChain_fields H d fuel chain1 _ _ ts1 nb1 hadd1
  have hs1eq : s1 = { s with docs := upsert nb1 s.docs } := by
    rw [hs1, saveBlockToFirebase_ok s nb1 hput]
  have hs1put : s1.putFails = false := by rw [hs1eq]; exact hput
  have hs1load : s1.loadFails = false := by rw [hs1eq]; exact hload0
  have hdocs1 : s1.docs = upsert nb1 s.docs := by rw [hs1eq]
  have hmem1 : nb1 ∈ s1.docs := by
    rw [hdocs1]
    exact mem_upsert_self nb1 s.docs
  have hsorted1 :
      List.Pairwise (fun a b : Block => a.index < b.index) s1.docs := by
    rw [hdocs1]
    exact pairwise_upsert nb1 s.docs hsorted
  have hne1 : s1.docs ≠ [] := by
    intro h0
    rw [h0] at hmem1
    simp at hmem1
  obtain ⟨chain2, nb2, hload2, hadd2, hs2, hr2⟩ :=
    recordVote_spec H d fuel s1 e c v ts2 s2 r2 h2
  have hchain2 : chain2 = s1.docs := by
    rw [loadFromFirebase_nonempty H d fuel s1 ts2 hs1load hne1] at hload2
    exact (Option.some.inj hload2).symm
  obtain ⟨hne2, hdata2, hidx2⟩ :=
    addBlockChain_fields H d fuel chain2 _ _ ts2 nb2 hadd2
  have hmax : nb1.index ≤ (chain2.getLast hne2).index := by
    apply pairwise_le_getLast chain2 (by rw [hchain2]; exact hsorted1) hne2 nb1
    rw [hchain2]
    exact hmem1
  have hlt : nb1.index < nb2.index := by rw [hidx2]; omega
  have hdocs2 : s2.docs = upsert nb2 s1.docs := by
    rw [hs2, saveBlockToFirebase_ok s1 nb2 hs1put]
  refine ⟨by rw [hr1], by rw [hr2], nb1, nb2, ?_, ?_, by omega, hdata1,
    hdata2⟩
  · rw [hdocs2]
    exact mem_upsert_of_mem nb1 nb2 s1.docs hmem1 (by omega)
  · rw [hdocs2]
    exact mem_upsert_self nb2 s1.docs

set_option maxRecDepth 32000 in
/-- C10 witness: replaying the same voter against the concrete store —
both calls report success. -/
theorem no_duplicate_vote_guard_witness :
    exC10step1.2.success = true ∧ exC10step2.2.success = true := by
  have h := no_duplicate_vote_guard zeroPrepend 1 3 exGoodStore (by decide)
    (by decide) List.Pairwise.nil "e1" 1 "v1" 0 9 exC10step1.1 exC10step2.1
    exC10step1.2 exC10step2.2 (by decide) (by decide)
  exact ⟨h.1, h.2.1⟩

end VotingLedger
